import Mathlib

set_option maxHeartbeats 1000000

/-! Verification of the typed-web valibot-form-data core: the path-expression
parser (`string-to-path-array.ts`), the nested-structure assembler
(`set-path.ts`) and the entry aggregator (`formData` in
`form-data-schema.ts`), embedded as executable Lean functions. -/

/-- Characters that a JavaScript regex `.` (no `s` flag) does not match:
the ECMAScript LineTerminator set LF, CR, LS, PS. -/
def isLineTerminator (c : Char) : Bool :=
  c == '\n' || c == '\r' || c == Char.ofNat 8232 || c == Char.ofNat 8233

/-- No character of the list is a line terminator, so `(.*)$` can match it. -/
def noTerm (l : List Char) : Bool := l.all (fun c => !isLineTerminator c)

/-- Characters admitted by the dot-notation character class `[^.\[\]]`. -/
def isDotNameChar (c : Char) : Bool := !(c == '.' || c == '[' || c == ']')

/-- Lazy scan of `BRACKET_NOTATION_REGEX = /^\[(.+?)\](.*)$/` after the opening
bracket and the first key character have been consumed: `p` is the key text
matched so far by `(.+?)`.  At a `]` the lazy quantifier first tries to close
the key, which succeeds when the remainder is matched by `(.*)$`
(terminator-free); otherwise the `]` is absorbed into the key and the scan
continues.  Any other character extends the key unless it is a line
terminator, which `.` cannot match. -/
def bracketAux : List Char → List Char → Option (List Char × List Char)
  | _, [] => none
  | p, c :: r =>
    if c = ']' then
      if noTerm r then some (p, r) else bracketAux (p ++ [c]) r
    else if isLineTerminator c then none
    else bracketAux (p ++ [c]) r

/-- Full match of `BRACKET_NOTATION_REGEX = /^\[(.+?)\](.*)$/` against the
remaining path, returning the captured key and rest on success. -/
def bracketMatch (l : List Char) : Option (List Char × List Char) :=
  match l with
  | [] => none
  | [_] => none
  | c0 :: c1 :: t =>
    if c0 = '[' then
      if isLineTerminator c1 then none else bracketAux [c1] t
    else none

/-- The optional leading dot `\.?` of `DOT_NOTATION_REGEX`, consumed greedily. -/
def stripDot : List Char → List Char
  | [] => []
  | c :: t => if c = '.' then t else c :: t

/-- Full match of `DOT_NOTATION_REGEX = /^\.?([^\.\[\]]+)(.*)$/` against the
remaining path: after the optional dot, the class run is maximal and must be
non-empty, and `(.*)$` requires the rest to be terminator-free. -/
def dotMatch (l : List Char) : Option (List Char × List Char) :=
  let t := stripDot l
  let k := t.takeWhile isDotNameChar
  let r := t.dropWhile isDotNameChar
  if k.isEmpty then none
  else if noTerm r then some (k, r) else none

/-- Value of a string of decimal digits, most significant digit first
(the exact value of `Number(key)` for a `NUMERIC_KEY_REGEX` key). -/
def natOfDigits (l : List Char) : Nat :=
  l.foldl (fun a c => 10 * a + (c.toNat - 48)) 0

/-- A parsed path segment: a string property name or a numeric index
(`Array<string | number>` elements in the source). -/
inductive PathSeg where
  | name (s : List Char)
  | index (n : Nat)
deriving DecidableEq, Repr

/-- Classification of a captured key: `NUMERIC_KEY_REGEX = /^\d+$/` keys
become numbers via `Number(key)`, the rest stay strings. -/
def toSeg (k : List Char) : PathSeg :=
  if !k.isEmpty && k.all Char.isDigit then .index (natOfDigits k) else .name k

/-- The recursive parser `parsePath`, totalized with explicit fuel: each
successful regex match consumes a non-empty prefix, so any fuel above the
input length yields the real (fuel-free) behaviour. -/
def parsePathGo : Nat → List Char → Option (List PathSeg)
  | 0, _ => none
  | fuel + 1, l =>
    if l.isEmpty then some []
    else
      match bracketMatch l with
      | some (k, r) => (parsePathGo fuel r).map (fun segs => toSeg k :: segs)
      | none =>
        match dotMatch l with
        | some (k, r) => (parsePathGo fuel r).map (fun segs => toSeg k :: segs)
        | none => none

/-- `parsePath` from `string-to-path-array.ts`: tries the bracket pattern,
then the dot pattern, recursing on the rest; `none` models the `null`
all-or-nothing failure. -/
def parsePath (l : List Char) : Option (List PathSeg) :=
  parsePathGo (l.length + 1) l

/-- `stringToPathArray` on character lists: empty input gives the empty
sequence, a failed parse falls back to the whole input as one name. -/
def stringToPathArrayL (l : List Char) : List PathSeg :=
  if l.isEmpty then []
  else
    match parsePath l with
    | none => [.name l]
    | some segs => segs

/-- The exported `stringToPathArray : string -> Array<string | number>`. -/
def stringToPathArray (s : String) : List PathSeg :=
  stringToPathArrayL s.data

/-- The characters of a string literal, for concrete inputs in statements. -/
def chars (s : String) : List Char := s.data

/-- Whether `pat` occurs contiguously inside `l`. -/
def containsSeq (pat l : List Char) : Bool :=
  (List.range (l.length + 1)).any (fun i => pat.isPrefixOf (l.drop i))

/-- Decimal digits of a natural number, most significant first, computed with
structural fuel so that it evaluates by reduction. -/
def natDigitsAux : Nat → Nat → List Char
  | 0, _ => []
  | _ + 1, 0 => []
  | f + 1, n => Char.ofNat (48 + n % 10) :: natDigitsAux f (n / 10)

/-- Canonical decimal rendering of a natural number (JavaScript
`ToString` of an integer number). -/
def natDigits (n : Nat) : List Char :=
  if n = 0 then ['0'] else (natDigitsAux (n + 1) n).reverse

/-! ## The JavaScript value model for `setPath` and `formData`

Objects, arrays and `File` handles are all `typeof "object"` in JavaScript;
property keys are strings (numeric indices are their decimal strings), and
own properties keep insertion order, with updates keeping the original slot.
The `in` operator and property reads also see the prototype chain, so plain
objects expose the `Object.prototype` property names, arrays additionally
expose their own `length` and the `Array.prototype` method names, and file
handles expose the `File.prototype`/`Blob.prototype` accessor and method
names.  All of these inherited values are functions or primitives, i.e. not
object-typed, with the single exception of the `__proto__` accessor: its
value is the shared global prototype object, whose mutation cannot be
represented in a tree-shaped value model, so `__proto__` is modelled as
present (faithful for `in`) but with an opaque non-container stand-in value. -/

/-- A JavaScript runtime value as `set-path.ts` observes it.  `builtinProp k`
stands for the value of an inherited prototype property named `k` (a builtin
method such as `Object.prototype.toString`, or a host accessor result): the
code only ever passes such a value to its `typeof` guard, which it fails. -/
inductive JSValue where
  | jsUndefined
  | jsNull
  | str (s : String)
  | num (n : Int)
  | bool (b : Bool)
  | builtinProp (name : String)
  | file (fid : Nat) (fields : List (String × JSValue))
  | obj (fields : List (String × JSValue))
  | arr (fields : List (String × JSValue))

/-- The string-keyed property names of `Object.prototype`, inherited by every
plain object. -/
def objProtoKeys : List String :=
  ["constructor", "hasOwnProperty", "isPrototypeOf", "propertyIsEnumerable",
   "toLocaleString", "toString", "valueOf", "__defineGetter__",
   "__defineSetter__", "__lookupGetter__", "__lookupSetter__", "__proto__"]

/-- The string-keyed property names visible on an array's prototype chain
(`Array.prototype` methods in a current engine, then `Object.prototype`). -/
def arrProtoKeys : List String :=
  objProtoKeys ++
  ["at", "concat", "copyWithin", "entries", "every", "fill", "filter",
   "find", "findIndex", "findLast", "findLastIndex", "flat", "flatMap",
   "forEach", "includes", "indexOf", "join", "keys", "lastIndexOf", "map",
   "pop", "push", "reduce", "reduceRight", "reverse", "shift", "slice",
   "some", "sort", "splice", "toReversed", "toSorted", "toSpliced",
   "unshift", "values", "with"]

/-- The string-keyed property names visible on a `File`'s prototype chain
(`File.prototype`, `Blob.prototype`, then `Object.prototype`). -/
def fileProtoKeys : List String :=
  objProtoKeys ++
  ["name", "lastModified", "webkitRelativePath", "size", "type", "slice",
   "stream", "text", "arrayBuffer", "bytes"]

/-- Property assignment on a field list: an existing key keeps its position
and gets the new value, a new key is appended. -/
def setFields (fs : List (String × JSValue)) (k : String) (v : JSValue) :
    List (String × JSValue) :=
  match fs with
  | [] => [(k, v)]
  | (k', v') :: rest =>
    if k' = k then (k', v) :: rest else (k', v') :: setFields rest k v

/-- `target[k] = v` for object-typed values: assignment always creates or
updates an *own* property, shadowing any inherited one; a no-op on
primitives (the code never reaches that case because of its `typeof`
guard).  The exotic behaviour of assigning to an array's `length` (truncation
or a range error) is outside the model: no verified statement performs such
a write. -/
def setProp : JSValue → String → JSValue → JSValue
  | .obj fs, k, v => .obj (setFields fs k v)
  | .arr fs, k, v => .arr (setFields fs k v)
  | .file fid fs, k, v => .file fid (setFields fs k v)
  | c, _, _ => c

/-- The Nat value of a string that is a canonical array index key (non-empty
digits rendering back to themselves, so `"3"` but not `"03"`). -/
def arrIndexVal (k : String) : Option Nat :=
  if k.data ≠ [] ∧ k.data.all Char.isDigit ∧ natDigits (natOfDigits k.data) = k.data
  then some (natOfDigits k.data) else none

/-- The `length` of an array: one more than its largest array-index key, as
maintained by element assignment. -/
def arrLength (fs : List (String × JSValue)) : Nat :=
  fs.foldl
    (fun m p =>
      match arrIndexVal p.1 with
      | some i => max m (i + 1)
      | none => m)
    0

/-- The `k in target` test: own properties first, then the prototype chain
(and an array's own `length`). -/
def hasProp : JSValue → String → Bool
  | .obj fs, k => (fs.lookup k).isSome || objProtoKeys.contains k
  | .arr fs, k => (fs.lookup k).isSome || k == "length" || arrProtoKeys.contains k
  | .file _ fs, k => (fs.lookup k).isSome || fileProtoKeys.contains k
  | _, _ => false

/-- `target[k]`: an own property first, then an array's `length`, then the
inherited prototype property, and `undefined` when nothing is found. -/
def getPropD : JSValue → String → JSValue
  | .obj fs, k =>
    match fs.lookup k with
    | some v => v
    | none => if objProtoKeys.contains k then .builtinProp k else .jsUndefined
  | .arr fs, k =>
    match fs.lookup k with
    | some v => v
    | none =>
      if k = "length" then .num (arrLength fs)
      else if arrProtoKeys.contains k then .builtinProp k else .jsUndefined
  | .file _ fs, k =>
    match fs.lookup k with
    | some v => v
    | none => if fileProtoKeys.contains k then .builtinProp k else .jsUndefined
  | _, _ => .jsUndefined

/-- A key under which a freshly created empty container has no property at
all: not inherited from `Object.prototype` or `Array.prototype` and not an
array's `length`, so creation inside it always succeeds. -/
def creatableKey (k : String) : Bool :=
  !objProtoKeys.contains k && !arrProtoKeys.contains k && !(k == "length")

/-- The guard `typeof v === "object" && v !== null`: objects, arrays and
`File` handles pass; `null`, `undefined`, primitives and functions (such as
inherited prototype methods) do not. -/
def isNavigable : JSValue → Bool
  | .obj _ => true
  | .arr _ => true
  | .file _ _ => true
  | _ => false

/-- Whether the value is an array (`Sequence`). -/
def isArrVal : JSValue → Bool
  | .arr _ => true
  | _ => false

/-- The property key a segment denotes: JavaScript coerces numeric keys to
their decimal strings. -/
def segKey : PathSeg → String
  | .name s => String.mk s
  | .index n => String.mk (natDigits n)

/-- Whether a segment is numeric (`typeof segment === "number"`). -/
def isIndexSeg : PathSeg → Bool
  | .index _ => true
  | .name _ => false

/-- An error raised by `setPath`. -/
inductive SetErr where
  | emptyPath
  | structuralConflict (key : String) (value : JSValue)

/-- The descent loop of `setPath` over the leading segments, mutation modelled
by returning the updated container together with the error, so that any
writes performed before a failure are kept in the returned container.  For a
missing key a new array or object is created and inserted first, according to
the next segment (`leadingSegments[i + 1] ?? lastSegment`); then the stored
value is read back and the `typeof` guard decides between descending and
throwing.  After the loop the final segment is written unconditionally. -/
def goLoop : JSValue → List PathSeg → PathSeg → JSValue → JSValue × Option SetErr
  | c, [], last, value => (setProp c (segKey last) value, none)
  | c, s :: rest, last, value =>
    let key := segKey s
    let c1 :=
      if hasProp c key then c
      else
        setProp c key
          (if isIndexSeg (rest.headD last) then JSValue.arr [] else JSValue.obj [])
    let v := getPropD c1 key
    if isNavigable v then
      let r := goLoop v rest last value
      (setProp c1 key r.1, r.2)
    else (c1, some (SetErr.structuralConflict key v))

/-- `setPath(object, path, value)` from `set-path.ts`: parse the path, throw
on an empty segment list, otherwise run the descent loop on all but the last
segment and write the value at the last one. -/
def setPath (root : JSValue) (path : String) (value : JSValue) :
    JSValue × Option SetErr :=
  match stringToPathArray path with
  | [] => (root, some SetErr.emptyPath)
  | s :: ss => goLoop root ((s :: ss).dropLast) ((s :: ss).getLastD s) value

/-! ## The entry aggregator (`formData` transform in `form-data-schema.ts`) -/

/-- Record one `(key, value)` entry in the insertion-ordered group map:
append to the existing group, or add a new singleton group at the end. -/
def addEntry (acc : List (String × List JSValue)) (k : String) (v : JSValue) :
    List (String × List JSValue) :=
  if acc.any (fun p => p.1 == k) then
    acc.map (fun p => if p.1 == k then (p.1, p.2 ++ [v]) else p)
  else acc ++ [(k, [v])]

/-- Group the raw entries by key in arrival order, keeping every value. -/
def groupEntries (entries : List (String × JSValue)) :
    List (String × List JSValue) :=
  entries.foldl (fun acc e => addEntry acc e.1 e.2) []

/-- The ordered list of values recorded for `k`, empty when `k` was never
seen. -/
def valsOf (g : List (String × List JSValue)) (k : String) : List JSValue :=
  match g.find? (fun p => p.1 == k) with
  | some p => p.2
  | none => []

/-- A JavaScript array literal holding the given values in order. -/
def jsArrayOfList (l : List JSValue) : JSValue :=
  .arr (l.enum.map (fun p => (String.mk (natDigits p.1), p.2)))

/-- `list.length === 1 ? list[0] : list`: a single value stays itself,
otherwise the full ordered list becomes an array value. -/
def collapse : List JSValue → JSValue
  | [v] => v
  | l => jsArrayOfList l

/-- Steps 1-3 of the aggregator: group, collapse, and fold `setPath` over the
grouped keys starting from an empty object accumulator; a raised error stops
the fold. -/
def formDataAssemble (entries : List (String × JSValue)) :
    JSValue × Option SetErr :=
  (groupEntries entries).foldl
    (fun st kv =>
      match st.2 with
      | some _ => st
      | none => setPath st.1 kv.1 (collapse kv.2))
    (JSValue.obj [], none)

/-- The whole aggregation: assemble, then backfill every declared key that is
not already a direct property of the accumulator with `undefined`. -/
def formDataAggregate (entries : List (String × JSValue))
    (declared : List String) : JSValue × Option SetErr :=
  declared.foldl
    (fun st k =>
      match st.2 with
      | some _ => st
      | none => if hasProp st.1 k then st else setPath st.1 k JSValue.jsUndefined)
    (formDataAssemble entries)

/-! ## Canonical rendering of a segment sequence

Modelled from the spec: the repository has no renderer; spec section 8 asks
that re-rendering a valid parse to canonical dot/bracket text and re-parsing
reproduce the same sequence.  A name that can stand as a dot segment (it is
non-empty, contains none of `.`, `[`, `]`, and is not all digits, which would
re-classify it as an index) is rendered in dot notation; every other name and
every index is rendered in bracket notation. -/

/-- Whether a name renders as a dot segment. -/
def isPlainName (s : List Char) : Bool :=
  !s.isEmpty && s.all isDotNameChar && !(!s.isEmpty && s.all Char.isDigit)

/-- Modelled from the spec: canonical text of one segment; `first` suppresses
the leading separator dot of an initial dot segment. -/
def renderSeg (first : Bool) : PathSeg → List Char
  | .name s =>
    if isPlainName s then (if first then s else '.' :: s)
    else '[' :: (s ++ [']'])
  | .index n => '[' :: (natDigits n ++ [']'])

/-- Modelled from the spec: canonical text of the segments after the first. -/
def renderTail (segs : List PathSeg) : List Char :=
  (segs.map (renderSeg false)).flatten

/-- Modelled from the spec: canonical dot/bracket text of a whole segment
sequence. -/
def renderPath : List PathSeg → List Char
  | [] => []
  | s :: rest => renderSeg true s ++ renderTail rest

/-- Shape of a segment the parser can produce after the first position: a
name is non-empty, not all digits (it would have become an index),
terminator-free (it lies in some match's terminator-free rest), and is
either a pure dot-notation name or a bracket key, whose tail cannot contain
`]` because the lazy quantifier would have closed earlier. -/
def goodTailSeg : PathSeg → Prop
  | .index _ => True
  | .name s =>
    s ≠ [] ∧ s.all Char.isDigit = false ∧ noTerm s = true ∧
      (s.all isDotNameChar = true ∨ ∀ c ∈ s.tail, c ≠ ']')

/-- Shape of the first segment the parser can produce: a dot-notation name
in first position may additionally contain line terminators. -/
def goodFirstSeg : PathSeg → Prop
  | .index _ => True
  | .name s =>
    s ≠ [] ∧ s.all Char.isDigit = false ∧
      (s.all isDotNameChar = true ∨
        (noTerm s = true ∧ ∀ c ∈ s.tail, c ≠ ']'))

/-! ## Basic parser lemmas -/

theorem noTerm_nil : noTerm [] = true := rfl

theorem noTerm_cons (c : Char) (l : List Char) :
    noTerm (c :: l) = (!isLineTerminator c && noTerm l) := rfl

theorem noTerm_append (a b : List Char) :
    noTerm (a ++ b) = (noTerm a && noTerm b) := by
  simp [noTerm, List.all_append]

theorem bracketAux_length :
    ∀ (t p k r : List Char), bracketAux p t = some (k, r) → r.length < t.length := by
  intro t
  induction t with
  | nil => intro p k r h; simp [bracketAux] at h
  | cons c cs ih =>
    intro p k r h
    simp only [bracketAux] at h
    split at h
    · split at h
      · cases h; simp
      · have := ih (p ++ [c]) k r h
        simpa using Nat.lt_succ_of_lt this
    · split at h
      · cases h
      · have := ih (p ++ [c]) k r h
        simpa using Nat.lt_succ_of_lt this

theorem bracketMatch_length (l k r : List Char) :
    bracketMatch l = some (k, r) → r.length < l.length := by
  intro h
  match l with
  | [] => simp [bracketMatch] at h
  | [_] => simp [bracketMatch] at h
  | c0 :: c1 :: t =>
    simp only [bracketMatch] at h
    split at h
    · split at h
      · cases h
      · have := bracketAux_length t [c1] k r h
        simp only [List.length_cons]
        omega
    · cases h

theorem stripDot_length (l : List Char) : (stripDot l).length ≤ l.length := by
  cases l with
  | nil => simp [stripDot]
  | cons c t =>
    simp only [stripDot]
    split <;> simp

theorem dotMatch_inv (l k r : List Char) :
    dotMatch l = some (k, r) →
      k = (stripDot l).takeWhile isDotNameChar ∧
      r = (stripDot l).dropWhile isDotNameChar ∧
      k.isEmpty = false ∧ noTerm r = true := by
  intro h
  simp only [dotMatch] at h
  by_cases h1 : ((stripDot l).takeWhile isDotNameChar).isEmpty
  · simp [h1] at h
  · by_cases h2 : noTerm ((stripDot l).dropWhile isDotNameChar)
    · simp only [h1, if_false, Bool.false_eq_true, h2, if_true, Option.some.injEq,
        Prod.mk.injEq] at h
      refine ⟨h.1.symm, h.2.symm, ?_, ?_⟩
      · rw [h.1] at h1
        simpa using h1
      · rw [h.2] at h2
        exact h2
    · simp [h1, h2] at h

theorem dotMatch_length (l k r : List Char) :
    dotMatch l = some (k, r) → r.length < l.length := by
  intro h
  obtain ⟨hk, hr, hne, -⟩ := dotMatch_inv l k r h
  have hsum : k.length + r.length = (stripDot l).length := by
    rw [hk, hr]
    rw [← List.length_append, List.takeWhile_append_dropWhile]
  have hk1 : 1 ≤ k.length := by
    cases k with
    | nil => simp at hne
    | cons _ _ => simp
  have := stripDot_length l
  omega

theorem parsePathGo_fuel :
    ∀ (f g : Nat) (l : List Char), l.length < f → l.length < g →
      parsePathGo f l = parsePathGo g l := by
  intro f
  induction f with
  | zero => intro g l h; omega
  | succ f ih =>
    intro g l hf hg
    cases g with
    | zero => omega
    | succ g =>
      simp only [parsePathGo]
      split
      · rfl
      · cases hbm : bracketMatch l with
        | some kr =>
          obtain ⟨k, r⟩ := kr
          have hlen := bracketMatch_length l k r hbm
          simp [ih g r (by omega) (by omega)]
        | none =>
          cases hdm : dotMatch l with
          | some kr =>
            obtain ⟨k, r⟩ := kr
            have hlen := dotMatch_length l k r hdm
            simp [ih g r (by omega) (by omega)]
          | none => rfl

theorem parsePath_eq (l : List Char) :
    parsePath l =
      (if l.isEmpty then some []
       else
        match bracketMatch l with
        | some (k, r) => (parsePath r).map (fun segs => toSeg k :: segs)
        | none =>
          match dotMatch l with
          | some (k, r) => (parsePath r).map (fun segs => toSeg k :: segs)
          | none => none) := by
  have h1 : parsePath l = parsePathGo (l.length + 1) l := rfl
  rw [h1]
  simp only [parsePathGo]
  split
  · rfl
  · cases hbm : bracketMatch l with
    | some kr =>
      obtain ⟨k, r⟩ := kr
      have hlen := bracketMatch_length l k r hbm
      have h2 : parsePathGo l.length r = parsePath r :=
        parsePathGo_fuel l.length (r.length + 1) r (by omega) (by omega)
      simp [h2]
    | none =>
      cases hdm : dotMatch l with
      | some kr =>
        obtain ⟨k, r⟩ := kr
        have hlen := dotMatch_length l k r hdm
        have h2 : parsePathGo l.length r = parsePath r :=
          parsePathGo_fuel l.length (r.length + 1) r (by omega) (by omega)
        simp [h2]
      | none => rfl

theorem parsePath_nil : parsePath [] = some [] := rfl

/-! ## Claims C1, C2, C8: fallback behaviour and totality of the parser -/

theorem takeWhile_all_append (p : Char → Bool) :
    ∀ (a r : List Char), (∀ c ∈ a, p c = true) →
      (a ++ r).takeWhile p = a ++ r.takeWhile p := by
  intro a
  induction a with
  | nil => intro r _; simp
  | cons c t ih =>
    intro r h
    have hc : p c = true := h c (by simp)
    simp [List.takeWhile_cons, hc, ih r (fun x hx => h x (by simp [hx]))]

theorem dropWhile_all_append (p : Char → Bool) :
    ∀ (a r : List Char), (∀ c ∈ a, p c = true) →
      (a ++ r).dropWhile p = r.dropWhile p := by
  intro a
  induction a with
  | nil => intro r _; simp
  | cons c t ih =>
    intro r h
    have hc : p c = true := h c (by simp)
    simp [List.dropWhile_cons, hc, ih r (fun x hx => h x (by simp [hx]))]

theorem takeWhile_all_eq (p : Char → Bool) (l : List Char) (h : ∀ c ∈ l, p c = true) :
    l.takeWhile p = l ∧ l.dropWhile p = [] := by
  have h1 := takeWhile_all_append p l [] h
  have h2 := dropWhile_all_append p l [] h
  constructor
  · simpa using h1
  · simpa using h2

theorem bracketMatch_none_of_head (c0 : Char) (t : List Char) (h : c0 ≠ '[') :
    bracketMatch (c0 :: t) = none := by
  cases t with
  | nil => simp [bracketMatch]
  | cons c1 t => simp [bracketMatch, h]

theorem stripDot_of_head_ne (c0 : Char) (t : List Char) (h : c0 ≠ '.') :
    stripDot (c0 :: t) = c0 :: t := by
  simp [stripDot, h]

/-- C2 counterexample: the input `"."` contains neither `[` nor `]`, yet the
recursive parse fails and `stringToPathArray` falls back to the single
verbatim segment, contradicting the claim that every bracket-free string
parses into segments without the fallback. -/
theorem claimC2_counterexample :
    '[' ∉ chars "." ∧ ']' ∉ chars "." ∧
    parsePath (chars ".") = none ∧
    stringToPathArray "." = [PathSeg.name (chars ".")] := by
  refine ⟨by decide, by decide, by decide, by decide⟩

/-- C2 amended: the fallback is triggered exactly when the recursive parse
fails, which malformed dot syntax (for example a lone `"."`) can cause as
well as malformed brackets; every non-empty input containing no `[`, no `]`
and also no `.` parses into a single segment without the fallback. -/
theorem claimC2_no_bracket_no_dot_parses :
    ∀ l : List Char, l ≠ [] → (∀ c ∈ l, c ≠ '[' ∧ c ≠ ']' ∧ c ≠ '.') →
      parsePath l = some [toSeg l] ∧ stringToPathArrayL l = [toSeg l] := by
  intro l hne h
  have hall : ∀ c ∈ l, isDotNameChar c = true := by
    intro c hc
    obtain ⟨h1, h2, h3⟩ := h c hc
    simp [isDotNameChar, h1, h2, h3]
  have hparse : parsePath l = some [toSeg l] := by
    rw [parsePath_eq]
    obtain ⟨c0, t, rfl⟩ : ∃ c0 t, l = c0 :: t := by
      cases l with
      | nil => exact absurd rfl hne
      | cons c0 t => exact ⟨c0, t, rfl⟩
    have hbm := bracketMatch_none_of_head c0 t (h c0 (by simp)).1
    have hsd := stripDot_of_head_ne c0 t (h c0 (by simp)).2.2
    have htk := takeWhile_all_eq isDotNameChar (c0 :: t) hall
    have hdm : dotMatch (c0 :: t) = some (c0 :: t, []) := by
      simp [dotMatch, hsd, htk.1, htk.2, noTerm_nil]
    simp [hbm, hdm, parsePath_nil]
  refine ⟨hparse, ?_⟩
  have hne' : (l.isEmpty) = false := by
    cases l with
    | nil => exact absurd rfl hne
    | cons _ _ => rfl
  simp [stringToPathArrayL, hne', hparse]

theorem claimC2_witness :
    parsePath (chars "ab") = some [toSeg (chars "ab")] ∧
    stringToPathArrayL (chars "ab") = [toSeg (chars "ab")] :=
  claimC2_no_bracket_no_dot_parses (chars "ab") (by decide) (by decide)

/-- C1 counterexample: the input `"[]]"` contains both `[]` and `]]`, yet it
does not parse to the single verbatim segment: the lazy bracket pattern
captures the key `]`, so the result is the one-segment sequence `["]"]`. -/
theorem claimC1_counterexample :
    containsSeq (chars "[]") (chars "[]]") = true ∧
    containsSeq (chars "]]") (chars "[]]") = true ∧
    stringToPathArray "[]]" ≠ [PathSeg.name (chars "[]]")] ∧
    stringToPathArray "[]]" = [PathSeg.name (chars "]")] := by
  refine ⟨by decide, by decide, by decide, by decide⟩

/-- C1 amended: whenever the recursive parse of a non-empty input fails,
`stringToPathArray` returns the single segment equal to the original input
verbatim — in particular on the documented malformed inputs — but containing
`[[`, `]]`, `[]` or unbalanced brackets does not always make the parse fail
(see the counterexample `"[]]"`). -/
theorem claimC1_fallback_on_parse_failure :
    (∀ l : List Char, l ≠ [] → parsePath l = none →
        stringToPathArrayL l = [PathSeg.name l]) ∧
    stringToPathArray "invalid[[path" = [PathSeg.name (chars "invalid[[path")] ∧
    stringToPathArray "test]]" = [PathSeg.name (chars "test]]")] ∧
    stringToPathArray "[]" = [PathSeg.name (chars "[]")] ∧
    stringToPathArray "[unclosed" = [PathSeg.name (chars "[unclosed")] ∧
    stringToPathArray "unopened]" = [PathSeg.name (chars "unopened]")] ∧
    stringToPathArray "user[].name" = [PathSeg.name (chars "user[].name")] := by
  refine ⟨?_, by decide, by decide, by decide, by decide, by decide, by decide⟩
  intro l hne hp
  have hne' : (l.isEmpty) = false := by
    cases l with
    | nil => exact absurd rfl hne
    | cons _ _ => rfl
  simp [stringToPathArrayL, hne', hp]

theorem claimC1_fallback_witness :
    stringToPathArrayL (chars "[[") = [PathSeg.name (chars "[[")] :=
  claimC1_fallback_on_parse_failure.1 (chars "[[") (by decide) (by decide)

/-- C8: the parser is total and terminating: each successful regex match
consumes a non-empty prefix of the input, so the rest is strictly shorter
and any fuel above the input length computes the fixed point `parsePath`;
`stringToPathArray` therefore always returns a defined segment sequence. -/
theorem claimC8_parser_total :
    (∀ l k r : List Char, bracketMatch l = some (k, r) → r.length < l.length) ∧
    (∀ l k r : List Char, dotMatch l = some (k, r) → r.length < l.length) ∧
    (∀ (f : Nat) (l : List Char), l.length < f → parsePathGo f l = parsePath l) ∧
    (∀ s : String, ∃ segs : List PathSeg, stringToPathArray s = segs) := by
  refine ⟨bracketMatch_length, dotMatch_length, ?_, fun s => ⟨_, rfl⟩⟩
  intro f l h
  exact parsePathGo_fuel f (l.length + 1) l h (Nat.lt_succ_self _)

theorem claimC8_witness :
    (chars "b").length < (chars "[a]b").length ∧
    parsePathGo 37 (chars "[a]b") = parsePath (chars "[a]b") :=
  ⟨claimC8_parser_total.1 (chars "[a]b") (chars "a") (chars "b") (by decide),
   claimC8_parser_total.2.2.1 37 (chars "[a]b") (by decide)⟩

/-! ## Lemmas about property access and the `setPath` descent -/

theorem lookup_setFields_self (k : String) (v : JSValue) :
    ∀ fs : List (String × JSValue), (setFields fs k v).lookup k = some v := by
  intro fs
  induction fs with
  | nil => simp [setFields, List.lookup]
  | cons p rest ih =>
    obtain ⟨k', v'⟩ := p
    by_cases h : k' = k
    · simp [setFields, h, List.lookup]
    · have hne : (k == k') = false := by
        simp [beq_eq_false_iff_ne]
        exact Ne.symm h
      simp [setFields, h, List.lookup, hne, ih]

theorem setFields_lookup_eq_self (k : String) :
    ∀ (fs : List (String × JSValue)) (v : JSValue),
      fs.lookup k = some v → setFields fs k v = fs := by
  intro fs
  induction fs with
  | nil => intro v h; simp [List.lookup] at h
  | cons p rest ih =>
    intro v h
    obtain ⟨k', v'⟩ := p
    by_cases hk : (k == k') = true
    · have hk' : k' = k := (eq_of_beq hk).symm
      simp only [List.lookup, hk] at h
      cases h
      simp [setFields, hk']
    · have hkb : (k == k') = false := by
        cases hbe : (k == k') with
        | true => exact absurd hbe hk
        | false => rfl
      have hk2 : ¬ k' = k := fun e => by simp [e] at hkb
      simp only [List.lookup, hkb] at h
      simp [setFields, hk2, ih v h]

theorem setFields_getD (fs : List (String × JSValue)) (k : String)
    (h : (fs.lookup k).isSome = true) :
    setFields fs k ((fs.lookup k).getD .jsUndefined) = fs := by
  obtain ⟨v, hv⟩ := Option.isSome_iff_exists.mp h
  rw [hv]
  exact setFields_lookup_eq_self k fs v hv

theorem setProp_leaf (c : JSValue) (k : String) (v : JSValue)
    (h : isNavigable c = false) : setProp c k v = c := by
  cases c <;> simp_all [setProp, isNavigable]

theorem getPropD_leaf (c : JSValue) (k : String)
    (h : isNavigable c = false) : getPropD c k = .jsUndefined := by
  cases c <;> simp_all [getPropD, isNavigable]

theorem getPropD_setProp_self (c : JSValue) (k : String) (v : JSValue)
    (h : isNavigable c = true) : getPropD (setProp c k v) k = v := by
  cases c <;> simp_all [setProp, getPropD, isNavigable, lookup_setFields_self]

theorem hasProp_setProp_self (c : JSValue) (k : String) (v : JSValue)
    (h : isNavigable c = true) : hasProp (setProp c k v) k = true := by
  cases c <;> simp_all [setProp, hasProp, isNavigable, lookup_setFields_self]

theorem setProp_getPropD_nav (c : JSValue) (k : String)
    (h : isNavigable (getPropD c k) = true) : setProp c k (getPropD c k) = c := by
  cases c with
  | obj fs =>
    cases hf : fs.lookup k with
    | some v =>
      simp only [getPropD, hf, setProp]
      rw [setFields_lookup_eq_self k fs v hf]
    | none =>
      exfalso
      simp only [getPropD, hf] at h
      split at h <;> simp [isNavigable] at h
  | arr fs =>
    cases hf : fs.lookup k with
    | some v =>
      simp only [getPropD, hf, setProp]
      rw [setFields_lookup_eq_self k fs v hf]
    | none =>
      exfalso
      simp only [getPropD, hf] at h
      split at h
      · simp [isNavigable] at h
      · split at h <;> simp [isNavigable] at h
  | file fid fs =>
    cases hf : fs.lookup k with
    | some v =>
      simp only [getPropD, hf, setProp]
      rw [setFields_lookup_eq_self k fs v hf]
    | none =>
      exfalso
      simp only [getPropD, hf] at h
      split at h <;> simp [isNavigable] at h
  | jsUndefined => simp [getPropD, isNavigable] at h
  | jsNull => simp [getPropD, isNavigable] at h
  | str s => simp [getPropD, isNavigable] at h
  | num n => simp [getPropD, isNavigable] at h
  | bool b => simp [getPropD, isNavigable] at h
  | builtinProp n => simp [getPropD, isNavigable] at h

theorem isNavigable_setProp (c : JSValue) (k : String) (v : JSValue) :
    isNavigable (setProp c k v) = isNavigable c := by
  cases c <;> rfl

theorem isArrVal_setProp (c : JSValue) (k : String) (v : JSValue) :
    isArrVal (setProp c k v) = isArrVal c := by
  cases c <;> rfl

theorem hasProp_leaf (c : JSValue) (k : String)
    (h : isNavigable c = false) : hasProp c k = false := by
  cases c <;> simp_all [hasProp, isNavigable]

theorem goLoop_nil (c : JSValue) (last : PathSeg) (value : JSValue) :
    goLoop c [] last value = (setProp c (segKey last) value, none) := rfl

theorem goLoop_kind :
    ∀ (leading : List PathSeg) (c : JSValue) (last : PathSeg) (value : JSValue),
      isArrVal (goLoop c leading last value).1 = isArrVal c := by
  intro leading
  induction leading with
  | nil => intro c last value; simp [goLoop, isArrVal_setProp]
  | cons s rest ih =>
    intro c last value
    simp only [goLoop]
    by_cases hp : hasProp c (segKey s)
    · simp only [hp, if_true]
      split
      · simp [isArrVal_setProp]
      · rfl
    · simp only [hp, Bool.false_eq_true, if_false]
      split <;> split <;> simp [isArrVal_setProp]

theorem creatableKey_parts (k : String) (h : creatableKey k = true) :
    objProtoKeys.contains k = false ∧ arrProtoKeys.contains k = false ∧
    (k == "length") = false := by
  simp only [creatableKey, Bool.and_eq_true, Bool.not_eq_true'] at h
  exact ⟨h.1.1, h.1.2, h.2⟩

theorem hasProp_empty_creatable (k : String) (c : JSValue)
    (hc : c = .obj [] ∨ c = .arr []) (h : creatableKey k = true) :
    hasProp c k = false := by
  obtain ⟨h1, h2, h3⟩ := creatableKey_parts k h
  have h1' : k ∉ objProtoKeys := by simpa using h1
  have h2' : k ∉ arrProtoKeys := by simpa using h2
  rcases hc with rfl | rfl
  · simp [hasProp, List.lookup, h1']
  · simp [hasProp, List.lookup, h2', h3]

theorem goLoop_creatable_noerr :
    ∀ (leading : List PathSeg),
      (∀ t ∈ leading, creatableKey (segKey t) = true) →
      ∀ (c : JSValue), (c = .obj [] ∨ c = .arr []) →
      ∀ (last : PathSeg) (value : JSValue),
        (goLoop c leading last value).2 = none := by
  intro leading
  induction leading with
  | nil => intro _ c _ last value; simp [goLoop]
  | cons s rest ih =>
    intro hcr c hc last value
    have hnav : isNavigable c = true := by
      rcases hc with rfl | rfl <;> rfl
    have hp : hasProp c (segKey s) = false :=
      hasProp_empty_creatable (segKey s) c hc (hcr s (by simp))
    simp only [goLoop, hp, Bool.false_eq_true, if_false]
    rw [getPropD_setProp_self c (segKey s) _ hnav]
    have hnew : isNavigable
        (if isIndexSeg (rest.headD last) then JSValue.arr [] else JSValue.obj []) = true := by
      split <;> rfl
    simp only [hnew, if_true]
    exact ih (fun t ht => hcr t (by simp [ht])) _ (by split <;> simp) last value

theorem goLoop_err_unchanged :
    ∀ (leading : List PathSeg),
      (∀ t ∈ leading, creatableKey (segKey t) = true) →
      ∀ (c : JSValue) (last : PathSeg) (value : JSValue) (e : SetErr),
      (goLoop c leading last value).2 = some e →
      (goLoop c leading last value).1 = c := by
  intro leading
  induction leading with
  | nil => intro _ c last value e h; simp [goLoop] at h
  | cons s rest ih =>
    intro hcr c last value e h
    by_cases hp : hasProp c (segKey s)
    · simp only [goLoop, hp, if_true] at h ⊢
      by_cases hnav : isNavigable (getPropD c (segKey s))
      · simp only [hnav, if_true] at h ⊢
        have h1 := ih (fun t ht => hcr t (by simp [ht]))
          (getPropD c (segKey s)) last value e h
        rw [h1]
        exact setProp_getPropD_nav c (segKey s) hnav
      · simp only [hnav, Bool.false_eq_true, if_false] at h ⊢
    · by_cases hcnav : isNavigable c
      · exfalso
        simp only [goLoop, hp, Bool.false_eq_true, if_false] at h
        rw [getPropD_setProp_self c (segKey s) _ hcnav] at h
        have hnew : isNavigable
            (if isIndexSeg (rest.headD last) then JSValue.arr [] else JSValue.obj []) = true := by
          split <;> rfl
        simp only [hnew, if_true] at h
        rw [goLoop_creatable_noerr rest (fun t ht => hcr t (by simp [ht])) _
          (by split <;> simp) last value] at h
        cases h
      · have hcnav' : isNavigable c = false := by
          cases hbe : isNavigable c with
          | true => exact absurd hbe hcnav
          | false => rfl
        have hleaf := setProp_leaf c (segKey s)
          (if isIndexSeg (rest.headD last) then JSValue.arr [] else JSValue.obj []) hcnav'
        simp only [goLoop, hp, Bool.false_eq_true, if_false, hleaf] at h ⊢
        have hund := getPropD_leaf c (segKey s) hcnav'
        rw [hund] at h ⊢
        simp only [isNavigable, Bool.false_eq_true, if_false] at h ⊢

/-! ## Claims C3, C4, C7: descent failures, container creation, atomicity -/

/-- C3 counterexample: `File` handles are `typeof "object"`, so when the
descent reaches the key `avatar` holding a file, the guard passes and the
call navigates *into* the file and writes a property on it, returning with
no error, instead of failing with a structural conflict as the claim
states for every non-container leaf. -/
theorem claimC3_counterexample :
    setPath (.obj [("avatar", .file 0 [])]) "avatar.x" (.str "v") =
      (.obj [("avatar", .file 0 [("x", .str "v")])], none) ∧
    (setPath (.obj [("avatar", .file 0 [])]) "avatar.x" (.str "v")).2 = none := by
  exact ⟨rfl, rfl⟩

/-- C3 amended: during the descent a structural conflict is raised exactly at
an existing entry whose value fails the `typeof` guard — `undefined`
(including the missing-value sentinel), `null`, strings, numbers, booleans,
and non-object inherited properties such as prototype methods — and such a
value is reported in the error and left unchanged; object-typed values,
including opaque file handles, are navigated through instead. -/
theorem claimC3_conflict_iff_guard_fails :
    (∀ (c : JSValue) (leading : List PathSeg) (last : PathSeg) (value : JSValue)
        (k : String) (w : JSValue),
        (goLoop c leading last value).2 = some (.structuralConflict k w) →
        isNavigable w = false) ∧
    (∀ (c : JSValue) (s : PathSeg) (rest : List PathSeg) (last : PathSeg)
        (value : JSValue),
        hasProp c (segKey s) = true →
        isNavigable (getPropD c (segKey s)) = false →
        goLoop c (s :: rest) last value =
          (c, some (.structuralConflict (segKey s) (getPropD c (segKey s))))) := by
  constructor
  · intro c leading
    induction leading generalizing c with
    | nil => intro last value k w h; simp [goLoop] at h
    | cons s rest ih =>
      intro last value k w h
      by_cases hp : hasProp c (segKey s)
      · simp only [goLoop, hp, if_true] at h
        by_cases hnav : isNavigable (getPropD c (segKey s))
        · simp only [hnav, if_true] at h
          exact ih _ last value k w h
        · simp only [hnav, Bool.false_eq_true, if_false, Option.some.injEq] at h
          cases h
          cases hbe : isNavigable (getPropD c (segKey s)) with
          | true => exact absurd hbe hnav
          | false => rfl
      · simp only [goLoop, hp, Bool.false_eq_true, if_false] at h
        by_cases hcnav : isNavigable c
        · rw [getPropD_setProp_self c (segKey s) _ hcnav] at h
          have hnew : isNavigable
              (if isIndexSeg (rest.headD last) then JSValue.arr []
               else JSValue.obj []) = true := by
            split <;> rfl
          simp only [hnew, if_true] at h
          exact ih _ last value k w h
        · have hcnav' : isNavigable c = false := by
            cases hbe : isNavigable c with
            | true => exact absurd hbe hcnav
            | false => rfl
          rw [setProp_leaf c (segKey s) _ hcnav', getPropD_leaf c (segKey s) hcnav'] at h
          simp only [isNavigable, Bool.false_eq_true, if_false, Option.some.injEq] at h
          cases h
          rfl
  · intro c s rest last value hp hnav
    simp [goLoop, hp, hnav]

theorem claimC3_witness :
    goLoop (.obj [("user", .str "old")]) [.name (chars "user")]
        (.name (chars "name")) (.str "J") =
      (.obj [("user", .str "old")],
        some (.structuralConflict (segKey (.name (chars "user")))
          (getPropD (.obj [("user", .str "old")]) (segKey (.name (chars "user")))))) :=
  claimC3_conflict_iff_guard_fails.2 (.obj [("user", .str "old")])
    (.name (chars "user")) [] (.name (chars "name")) (.str "J") rfl rfl

/-- C4 counterexample: the key `toString` has no entry in the empty mapping,
yet the program creates nothing: the `in` test sees the inherited
`Object.prototype.toString`, creation is skipped, and the `typeof` guard
throws on the inherited function, so the claimed creation behaviour fails. -/
theorem claimC4_counterexample :
    setPath (.obj []) "toString.x" (.str "v") =
      (.obj [], some (.structuralConflict "toString" (.builtinProp "toString"))) ∧
    getPropD (.obj []) "toString" = .builtinProp "toString" := by
  exact ⟨rfl, rfl⟩

/-- C4 amended: during the descent, when a leading segment's key has no
property — own or inherited — in the current container, and the remaining
leading segments use ordinary data keys (not inherited prototype names and
not an array's `length`), the call succeeds in creating an entry there, and
the created container (still present after the deeper writes) is a
`Sequence` exactly when the next segment — the following leading segment, or
the final segment when the created one was last — is an `Index`, and a
`Mapping` otherwise; for a key whose only property is an inherited
non-container one, nothing is created and the descent fails instead. -/
theorem claimC4_creation_kind :
    ∀ (c : JSValue) (s : PathSeg) (rest : List PathSeg) (last : PathSeg)
      (value : JSValue),
      isNavigable c = true → hasProp c (segKey s) = false →
      (∀ t ∈ rest, creatableKey (segKey t) = true) →
      (goLoop c (s :: rest) last value).2 = none ∧
      hasProp (goLoop c (s :: rest) last value).1 (segKey s) = true ∧
      isArrVal (getPropD (goLoop c (s :: rest) last value).1 (segKey s)) =
        isIndexSeg (rest.headD last) := by
  intro c s rest last value hnav hp hcr
  have hp' : hasProp c (segKey s) ≠ true := by simp [hp]
  have hnew : isNavigable
      (if isIndexSeg (rest.headD last) then JSValue.arr []
       else JSValue.obj []) = true := by
    split <;> rfl
  have hget := getPropD_setProp_self c (segKey s)
    (if isIndexSeg (rest.headD last) then JSValue.arr [] else JSValue.obj []) hnav
  have herr := goLoop_creatable_noerr rest hcr
    (if isIndexSeg (rest.headD last) then JSValue.arr [] else JSValue.obj [])
    (by split <;> simp) last value
  have hkind := goLoop_kind rest
    (if isIndexSeg (rest.headD last) then JSValue.arr [] else JSValue.obj [])
    last value
  have hnav1 : isNavigable
      (setProp c (segKey s)
        (if isIndexSeg (rest.headD last) then JSValue.arr []
         else JSValue.obj [])) = true := by
    rw [isNavigable_setProp]; exact hnav
  simp only [goLoop, hp', Bool.false_eq_true, if_false, hget, hnew, if_true]
  refine ⟨herr, hasProp_setProp_self _ _ _ hnav1, ?_⟩
  rw [getPropD_setProp_self _ _ _ hnav1, hkind]
  split
  case isTrue h => rw [h]; rfl
  case isFalse h =>
    have hfalse : isIndexSeg (rest.headD last) = false := by
      cases hbe : isIndexSeg (rest.headD last) with
      | true => exact absurd hbe h
      | false => rfl
    rw [hfalse]; rfl

theorem claimC4_witness :
    (goLoop (.obj []) [.name (chars "users")] (.index 0) (.str "Alice")).2 = none ∧
    hasProp (goLoop (.obj []) [.name (chars "users")] (.index 0) (.str "Alice")).1
      (segKey (.name (chars "users"))) = true ∧
    isArrVal (getPropD
      (goLoop (.obj []) [.name (chars "users")] (.index 0) (.str "Alice")).1
      (segKey (.name (chars "users")))) =
      isIndexSeg (List.headD [] (.index 0)) :=
  claimC4_creation_kind (.obj []) (.name (chars "users")) [] (.index 0)
    (.str "Alice") rfl rfl (by simp)

/-- C7 counterexample: `setPath` is not atomic on failure: on the path
`a.toString.b` the first step creates and inserts the intermediate mapping
under `a`, and the second step then throws the structural conflict on the
inherited `Object.prototype.toString`, leaving the freshly created container
in the root. -/
theorem claimC7_counterexample :
    setPath (.obj []) "a.toString.b" (.str "v") =
      (.obj [("a", .obj [])],
        some (.structuralConflict "toString" (.builtinProp "toString"))) ∧
    (JSValue.obj [("a", JSValue.obj [])] ≠ JSValue.obj []) := by
  constructor
  · rfl
  · simp

/-- C7 amended: with zero parsed segments `setPath` fails with the
empty-path error leaving the root untouched, and when every leading
segment's key is an ordinary data key — not an inherited prototype property
name such as `toString` and not an array's `length` — any error returns the
root exactly as it was, because a conflict can then only arise before any
container was created; a conflict on an inherited prototype property,
however, can strike after intermediate containers were already inserted
(see the counterexample). -/
theorem claimC7_setPath_atomic :
    ∀ (root : JSValue) (path : String) (value : JSValue),
      (stringToPathArray path = [] →
        setPath root path value = (root, some SetErr.emptyPath)) ∧
      ((∀ t ∈ (stringToPathArray path).dropLast, creatableKey (segKey t) = true) →
        ∀ e : SetErr, (setPath root path value).2 = some e →
        (setPath root path value).1 = root) := by
  intro root path value
  constructor
  · intro h
    simp [setPath, h]
  · intro hcr e h
    cases hsegs : stringToPathArray path with
    | nil => simp [setPath, hsegs]
    | cons s ss =>
      rw [hsegs] at hcr
      simp only [setPath, hsegs] at h ⊢
      exact goLoop_err_unchanged _ hcr root _ value e h

theorem claimC7_witness :
    (setPath (.obj [("user", .str "old")]) "user.name" (.str "J")).1 =
      JSValue.obj [("user", .str "old")] :=
  (claimC7_setPath_atomic (.obj [("user", .str "old")]) "user.name" (.str "J")).2
    (by decide) (.structuralConflict "user" (.str "old")) rfl

/-! ## Claims C5, C6: grouping, collapsing, backfill -/

theorem find?_append_of_none {α : Type} (p : α → Bool) :
    ∀ (l1 l2 : List α), l1.find? p = none → (l1 ++ l2).find? p = l2.find? p := by
  intro l1
  induction l1 with
  | nil => intro l2 _; rfl
  | cons a t ih =>
    intro l2 h
    by_cases ha : p a
    · simp [List.find?_cons, ha] at h
    · simp only [List.cons_append, List.find?_cons] at h ⊢
      rw [Bool.not_eq_true] at ha
      rw [ha] at h ⊢
      exact ih l2 h

theorem find?_append_of_some {α : Type} (p : α → Bool) :
    ∀ (l1 l2 : List α) (a : α), l1.find? p = some a → (l1 ++ l2).find? p = some a := by
  intro l1
  induction l1 with
  | nil => intro l2 a h; simp [List.find?] at h
  | cons b t ih =>
    intro l2 a h
    by_cases hb : p b
    · simp only [List.find?_cons, hb] at h
      simp only [List.cons_append, List.find?_cons, hb]
      exact h
    · rw [Bool.not_eq_true] at hb
      simp only [List.find?_cons, hb] at h
      simp only [List.cons_append, List.find?_cons, hb]
      exact ih l2 a h

theorem valsOf_addEntry (acc : List (String × List JSValue)) (k' : String)
    (v : JSValue) (k : String) :
    valsOf (addEntry acc k' v) k =
      valsOf acc k ++ (if k' == k then [v] else []) := by
  by_cases hany : acc.any (fun p => p.1 == k')
  · have hmap : (addEntry acc k' v) =
        acc.map (fun p => if p.1 == k' then (p.1, p.2 ++ [v]) else p) := by
      simp [addEntry, hany]
    rw [hmap]
    unfold valsOf
    rw [List.find?_map]
    have hcomp :
        ((fun p : String × List JSValue => p.1 == k) ∘
          (fun p : String × List JSValue => if p.1 == k' then (p.1, p.2 ++ [v]) else p)) =
        (fun p : String × List JSValue => p.1 == k) := by
      funext q
      simp only [Function.comp]
      split <;> rfl
    rw [hcomp]
    cases hf : acc.find? (fun p => p.1 == k) with
    | none =>
      by_cases hkk : (k' == k)
      · exfalso
        obtain ⟨p0, hp0, hbeq⟩ := List.any_eq_true.mp hany
        have hne := List.find?_eq_none.mp hf p0 hp0
        apply hne
        have h1 : p0.1 = k' := eq_of_beq hbeq
        have h2 : k' = k := eq_of_beq hkk
        show (p0.1 == k) = true
        rw [h1, h2]
        simp
      · simp [hkk]
    | some p0 =>
      have hp0k : (p0.1 == k) = true := by simpa using List.find?_some hf
      by_cases hkk : (k' == k)
      · have hk'k : k' = k := eq_of_beq hkk
        have hp0k' : (p0.1 == k') = true := by rw [hk'k]; exact hp0k
        have heq : p0.1 = k' := eq_of_beq hp0k'
        simp [hkk, heq]
      · have hp0k' : (p0.1 == k') = false := by
          cases hbe : (p0.1 == k') with
          | true =>
            exfalso
            exact hkk (by rw [← eq_of_beq hbe]; exact hp0k)
          | false => rfl
        have hne : ¬ p0.1 = k' := by
          intro e
          rw [e] at hp0k'
          simp at hp0k'
        simp [hkk, hne, hp0k']
  · have happ : addEntry acc k' v = acc ++ [(k', [v])] := by
      simp only [addEntry]
      rw [Bool.not_eq_true] at hany
      rw [hany]
      simp
    rw [happ]
    unfold valsOf
    cases hf : acc.find? (fun p => p.1 == k) with
    | none =>
      rw [find?_append_of_none _ acc _ hf]
      by_cases hkk : (k' == k)
      · simp [List.find?, hkk, hf]
      · have hkk' : (k' == k) = false := by
          cases hbe : (k' == k) with
          | true => exact absurd hbe hkk
          | false => rfl
        simp [List.find?, hkk', hf]
    | some p0 =>
      rw [find?_append_of_some _ acc _ p0 hf]
      have hkk' : (k' == k) = false := by
        cases hbe : (k' == k) with
        | true =>
          exfalso
          have hp0k : (p0.1 == k) = true := by simpa using List.find?_some hf
          have hp0mem := List.mem_of_find?_eq_some hf
          apply hany
          refine List.any_eq_true.mpr ⟨p0, hp0mem, ?_⟩
          show (p0.1 == k') = true
          have hk'2 : k' = k := eq_of_beq hbe
          rw [hk'2]
          exact hp0k
        | false => rfl
      simp [hf, hkk']

theorem valsOf_foldl :
    ∀ (entries : List (String × JSValue)) (acc : List (String × List JSValue))
      (k : String),
      valsOf (entries.foldl (fun a e => addEntry a e.1 e.2) acc) k =
        valsOf acc k ++ (entries.filter (fun e => e.1 == k)).map Prod.snd := by
  intro entries
  induction entries with
  | nil => intro acc k; simp
  | cons e es ih =>
    intro acc k
    simp only [List.foldl_cons]
    rw [ih (addEntry acc e.1 e.2) k, valsOf_addEntry]
    rw [List.filter_cons]
    by_cases hek : (e.1 == k)
    · simp [hek]
    · have hek' : (e.1 == k) = false := by
        cases hbe : (e.1 == k) with
        | true => exact absurd hbe hek
        | false => rfl
      simp [hek']

/-- C5: grouping keeps every value of a key in arrival order (the values
recorded for a key are exactly the values of its entries in order), and the
claim's instance: aggregating the three entries with declared keys
name, hobbies, bio collapses the singleton to its value, the pair to the
ordered array, and backfills the never-seen bio with `undefined`. -/
theorem claimC5_aggregation :
    (∀ (entries : List (String × JSValue)) (k : String),
        valsOf (groupEntries entries) k =
          (entries.filter (fun e => e.1 == k)).map Prod.snd) ∧
    formDataAggregate
        [("name", .str "John"), ("hobbies", .str "a"), ("hobbies", .str "b")]
        ["name", "hobbies", "bio"] =
      (.obj [("name", .str "John"),
             ("hobbies", .arr [("0", .str "a"), ("1", .str "b")]),
             ("bio", .jsUndefined)], none) := by
  constructor
  · intro entries k
    have h := valsOf_foldl entries [] k
    simpa [groupEntries, valsOf] using h
  · rfl

/-- C6: with the dotted declared key `address.street`, the assembly step
populates the nested location with the entry's value, the backfill presence
check on the literal dotted string still fails (it is not a direct property
of the accumulator), and the backfill `setPath` then overwrites the
populated nested leaf with `undefined`. -/
theorem claimC6_backfill_overwrites_nested :
    formDataAssemble [("address.street", .str "X")] =
      (.obj [("address", .obj [("street", .str "X")])], none) ∧
    hasProp (formDataAssemble [("address.street", .str "X")]).1
      "address.street" = false ∧
    formDataAggregate [("address.street", .str "X")] ["address.street"] =
      (.obj [("address", .obj [("street", .jsUndefined)])], none) := by
  exact ⟨rfl, rfl, rfl⟩

/-! ## Character classification bridges and parser step lemmas -/

theorem digit_bounds (c : Char) (h : c.isDigit = true) :
    48 ≤ c.toNat ∧ c.toNat ≤ 57 := by
  simp only [Char.isDigit, Bool.and_eq_true, decide_eq_true_eq] at h
  obtain ⟨h1, h2⟩ := h
  rw [ge_iff_le, UInt32.le_def, BitVec.le_def] at h1
  rw [UInt32.le_def, BitVec.le_def] at h2
  exact ⟨h1, h2⟩

theorem digit_char_facts (c : Char) (h : c.isDigit = true) :
    isDotNameChar c = true ∧ isLineTerminator c = false ∧ c ≠ ']' := by
  obtain ⟨h1, h2⟩ := digit_bounds c h
  have n1 : c ≠ '.' := by intro e; subst e; exact absurd h1 (by decide)
  have n2 : c ≠ '[' := by intro e; subst e; exact absurd h2 (by decide)
  have n3 : c ≠ ']' := by intro e; subst e; exact absurd h2 (by decide)
  have n4 : c ≠ '\n' := by intro e; subst e; exact absurd h1 (by decide)
  have n5 : c ≠ '\r' := by intro e; subst e; exact absurd h1 (by decide)
  have n6 : c ≠ Char.ofNat 8232 := by intro e; subst e; exact absurd h2 (by decide)
  have n7 : c ≠ Char.ofNat 8233 := by intro e; subst e; exact absurd h2 (by decide)
  refine ⟨?_, ?_, n3⟩
  · simp [isDotNameChar, n1, n2, n3]
  · simp [isLineTerminator, n4, n5, n6, n7]

theorem dotname_char_facts (c : Char) (h : isDotNameChar c = true) :
    c ≠ '.' ∧ c ≠ '[' ∧ c ≠ ']' := by
  simp only [isDotNameChar, Bool.not_eq_true', Bool.or_eq_false_iff, beq_eq_false_iff_ne,
    ne_eq] at h
  exact ⟨h.1.1, h.1.2, h.2⟩

theorem digits_noTerm (d : List Char) (h : d.all Char.isDigit = true) :
    noTerm d = true := by
  simp only [noTerm, List.all_eq_true] at h ⊢
  intro c hc
  have := (digit_char_facts c (h c hc)).2.1
  simp [this]

theorem bracketAux_append :
    ∀ (t p r' : List Char), (∀ c ∈ t, c ≠ ']') →
      (∀ c ∈ t, isLineTerminator c = false) → noTerm r' = true →
      bracketAux p (t ++ ']' :: r') = some (p ++ t, r') := by
  intro t
  induction t with
  | nil =>
    intro p r' _ _ hr
    simp [bracketAux, hr]
  | cons c cs ih =>
    intro p r' h1 h2 hr
    have hc1 : ¬(c = ']') := h1 c (by simp)
    have hc2 : isLineTerminator c = false := h2 c (by simp)
    simp only [List.cons_append, bracketAux]
    rw [if_neg hc1]
    simp only [hc2, Bool.false_eq_true, if_false]
    have h3 := ih (p ++ [c]) r' (fun x hx => h1 x (by simp [hx]))
      (fun x hx => h2 x (by simp [hx])) hr
    simpa using h3

theorem bracketMatch_closed (k r : List Char) (hk : k ≠ [])
    (hkterm : ∀ c ∈ k, isLineTerminator c = false)
    (hktail : ∀ c ∈ k.tail, c ≠ ']') (hr : noTerm r = true) :
    bracketMatch ('[' :: (k ++ ']' :: r)) = some (k, r) := by
  obtain ⟨k0, k', rfl⟩ : ∃ k0 k', k = k0 :: k' := by
    cases k with
    | nil => exact absurd rfl hk
    | cons k0 k' => exact ⟨k0, k', rfl⟩
  have hk0 : isLineTerminator k0 = false := hkterm k0 (by simp)
  simp only [List.cons_append, bracketMatch, if_pos rfl]
  rw [hk0]
  simp only [Bool.false_eq_true, if_false]
  exact bracketAux_append k' [k0] r (fun x hx => hktail x (by simpa using hx))
    (fun x hx => hkterm x (by simp [hx])) hr

theorem dotMatch_plain (a r : List Char) (ha : a ≠ [])
    (hadot : ∀ c ∈ a, isDotNameChar c = true)
    (hstop : r.takeWhile isDotNameChar = [] ∧ r.dropWhile isDotNameChar = r)
    (hterm : noTerm r = true) :
    dotMatch (a ++ r) = some (a, r) := by
  obtain ⟨a0, a', rfl⟩ : ∃ a0 a', a = a0 :: a' := by
    cases a with
    | nil => exact absurd rfl ha
    | cons a0 a' => exact ⟨a0, a', rfl⟩
  have ha0 := dotname_char_facts a0 (hadot a0 (by simp))
  have hsd : stripDot ((a0 :: a') ++ r) = (a0 :: a') ++ r := by
    simp only [List.cons_append, stripDot]
    rw [if_neg ha0.1]
  have htk : ((a0 :: a') ++ r).takeWhile isDotNameChar = a0 :: a' := by
    rw [takeWhile_all_append isDotNameChar (a0 :: a') r hadot, hstop.1, List.append_nil]
  have hdr : ((a0 :: a') ++ r).dropWhile isDotNameChar = r := by
    rw [dropWhile_all_append isDotNameChar (a0 :: a') r hadot, hstop.2]
  simp only [dotMatch]
  rw [hsd, htk, hdr]
  simp [hterm]

theorem dotMatch_dotted (a r : List Char) (ha : a ≠ [])
    (hadot : ∀ c ∈ a, isDotNameChar c = true)
    (hstop : r.takeWhile isDotNameChar = [] ∧ r.dropWhile isDotNameChar = r)
    (hterm : noTerm r = true) :
    dotMatch ('.' :: (a ++ r)) = some (a, r) := by
  obtain ⟨a0, a', rfl⟩ : ∃ a0 a', a = a0 :: a' := by
    cases a with
    | nil => exact absurd rfl ha
    | cons a0 a' => exact ⟨a0, a', rfl⟩
  have hsd : stripDot ('.' :: ((a0 :: a') ++ r)) = (a0 :: a') ++ r := by
    simp [stripDot]
  have htk : ((a0 :: a') ++ r).takeWhile isDotNameChar = a0 :: a' := by
    rw [takeWhile_all_append isDotNameChar (a0 :: a') r hadot, hstop.1, List.append_nil]
  have hdr : ((a0 :: a') ++ r).dropWhile isDotNameChar = r := by
    rw [dropWhile_all_append isDotNameChar (a0 :: a') r hadot, hstop.2]
  simp only [dotMatch]
  rw [hsd, htk, hdr]
  simp [hterm]

theorem parsePath_bracket_step (k r : List Char) (hk : k ≠ [])
    (hkterm : ∀ c ∈ k, isLineTerminator c = false)
    (hktail : ∀ c ∈ k.tail, c ≠ ']') (hr : noTerm r = true) :
    parsePath ('[' :: (k ++ ']' :: r)) =
      (parsePath r).map (fun segs => toSeg k :: segs) := by
  rw [parsePath_eq]
  rw [bracketMatch_closed k r hk hkterm hktail hr]
  simp

theorem parsePath_plain_step (a r : List Char) (ha : a ≠ [])
    (hadot : ∀ c ∈ a, isDotNameChar c = true)
    (hstop : r.takeWhile isDotNameChar = [] ∧ r.dropWhile isDotNameChar = r)
    (hterm : noTerm r = true) :
    parsePath (a ++ r) = (parsePath r).map (fun segs => toSeg a :: segs) := by
  obtain ⟨a0, a', rfl⟩ : ∃ a0 a', a = a0 :: a' := by
    cases a with
    | nil => exact absurd rfl ha
    | cons a0 a' => exact ⟨a0, a', rfl⟩
  have ha0 := dotname_char_facts a0 (hadot a0 (by simp))
  rw [parsePath_eq]
  have hbm : bracketMatch ((a0 :: a') ++ r) = none := by
    simp only [List.cons_append]
    exact bracketMatch_none_of_head a0 _ ha0.2.1
  rw [hbm, dotMatch_plain (a0 :: a') r ha hadot hstop hterm]
  simp

theorem parsePath_dotted_step (a r : List Char) (ha : a ≠ [])
    (hadot : ∀ c ∈ a, isDotNameChar c = true)
    (hstop : r.takeWhile isDotNameChar = [] ∧ r.dropWhile isDotNameChar = r)
    (hterm : noTerm r = true) :
    parsePath ('.' :: (a ++ r)) = (parsePath r).map (fun segs => toSeg a :: segs) := by
  rw [parsePath_eq]
  have hbm : bracketMatch ('.' :: (a ++ r)) = none :=
    bracketMatch_none_of_head '.' _ (by decide)
  rw [hbm, dotMatch_dotted a r ha hadot hstop hterm]
  simp

/-- C9: numeric classification is notation-independent: a plain name `a`
followed by a non-empty all-digit key `d` parses to `[Name a, Index d]`
identically whether `d` is reached by dot or bracket notation. -/
theorem claimC9_numeric_notation_independent :
    ∀ (a d : List Char), a ≠ [] → a.all isDotNameChar = true →
      a.all Char.isDigit = false → d ≠ [] → d.all Char.isDigit = true →
      parsePath (a ++ '.' :: d) = some [.name a, .index (natOfDigits d)] ∧
      parsePath (a ++ '[' :: (d ++ [']'])) =
        some [.name a, .index (natOfDigits d)] := by
  intro a d ha hadot hadig hd hddig
  have hadot' : ∀ c ∈ a, isDotNameChar c = true := List.all_eq_true.mp hadot
  have hddig' : ∀ c ∈ d, c.isDigit = true := List.all_eq_true.mp hddig
  have hddot : ∀ c ∈ d, isDotNameChar c = true :=
    fun c hc => (digit_char_facts c (hddig' c hc)).1
  have hdterm : ∀ c ∈ d, isLineTerminator c = false :=
    fun c hc => (digit_char_facts c (hddig' c hc)).2.1
  have hdrb : ∀ c ∈ d, c ≠ ']' :=
    fun c hc => (digit_char_facts c (hddig' c hc)).2.2
  have hdnoterm : noTerm d = true := digits_noTerm d hddig
  have htosa : toSeg a = .name a := by
    simp [toSeg, hadig]
  have htosd : toSeg d = .index (natOfDigits d) := by
    have : d.isEmpty = false := by
      cases d with
      | nil => exact absurd rfl hd
      | cons _ _ => rfl
    simp [toSeg, this, hddig]
  constructor
  · rw [parsePath_plain_step a ('.' :: d) ha hadot'
      (by constructor
          · rw [List.takeWhile_cons_of_neg]; decide
          · rw [List.dropWhile_cons_of_neg]; decide)
      (by simp [noTerm_cons, hdnoterm]; decide)]
    have hinner : parsePath ('.' :: d) = some [toSeg d] := by
      have h1 : parsePath ('.' :: (d ++ [])) =
          (parsePath []).map (fun segs => toSeg d :: segs) :=
        parsePath_dotted_step d [] hd hddot (by simp) rfl
      simpa using h1
    rw [hinner, htosa, htosd]
    rfl
  · rw [parsePath_plain_step a ('[' :: (d ++ [']'])) ha hadot'
      (by constructor
          · rw [List.takeWhile_cons_of_neg]; decide
          · rw [List.dropWhile_cons_of_neg]; decide)
      (by simp only [noTerm_cons, noTerm_append]
          rw [hdnoterm]
          decide)]
    have hinner : parsePath ('[' :: (d ++ ']' :: [])) =
        (parsePath []).map (fun segs => toSeg d :: segs) :=
      parsePath_bracket_step d [] hd hdterm
        (fun c hc => hdrb c (List.mem_of_mem_tail hc)) rfl
    rw [show (d ++ [']'] : List Char) = d ++ ']' :: [] from rfl, hinner, htosa, htosd]
    rfl

theorem claimC9_witness :
    parsePath (chars "ab" ++ '.' :: chars "07") =
      some [.name (chars "ab"), .index (natOfDigits (chars "07"))] ∧
    parsePath (chars "ab" ++ '[' :: (chars "07" ++ [']'])) =
      some [.name (chars "ab"), .index (natOfDigits (chars "07"))] :=
  claimC9_numeric_notation_independent (chars "ab") (chars "07")
    (by decide) (by decide) (by decide) (by decide) (by decide)

/-! ## Shapes of segments produced by a successful parse -/

theorem noTerm_iff (l : List Char) :
    noTerm l = true ↔ ∀ c ∈ l, isLineTerminator c = false := by
  simp [noTerm, List.all_eq_true]

theorem bracketAux_none_of_term :
    ∀ (t p : List Char), noTerm t = false → bracketAux p t = none := by
  intro t
  induction t with
  | nil => intro p h; simp [noTerm] at h
  | cons c cs ih =>
    intro p h
    by_cases hc : c = ']'
    · subst hc
      have hcs : noTerm cs = false := by
        rw [noTerm_cons] at h
        rw [show isLineTerminator ']' = false from by decide] at h
        simpa using h
      simp [bracketAux, hcs, ih]
    · simp only [bracketAux]
      rw [if_neg hc]
      by_cases hct : isLineTerminator c
      · simp [hct]
      · have hct' : isLineTerminator c = false := by
          cases hbe : isLineTerminator c with
          | true => exact absurd hbe hct
          | false => rfl
        have hcs : noTerm cs = false := by
          rw [noTerm_cons, hct'] at h
          simpa using h
        simp [hct', ih _ hcs]

theorem bracketAux_shape :
    ∀ (t p k r : List Char), bracketAux p t = some (k, r) →
      noTerm r = true ∧
      ∃ m, k = p ++ m ∧ (∀ c ∈ m, c ≠ ']') ∧
        (∀ c ∈ m, isLineTerminator c = false) ∧ t = m ++ ']' :: r := by
  intro t
  induction t with
  | nil => intro p k r h; simp [bracketAux] at h
  | cons c cs ih =>
    intro p k r h
    by_cases hc : c = ']'
    · subst hc
      by_cases hcs : noTerm cs
      · simp only [bracketAux, if_pos rfl, hcs, if_true, Option.some.injEq,
          Prod.mk.injEq] at h
        obtain ⟨hk, hr⟩ := h
        subst hk; subst hr
        exact ⟨hcs, [], by simp, by simp, by simp, by simp⟩
      · have hcs' : noTerm cs = false := by
          cases hbe : noTerm cs with
          | true => exact absurd hbe hcs
          | false => rfl
        simp only [bracketAux, if_pos rfl, hcs', Bool.false_eq_true, if_false] at h
        rw [bracketAux_none_of_term cs _ hcs'] at h
        cases h
    · simp only [bracketAux] at h
      rw [if_neg hc] at h
      by_cases hct : isLineTerminator c
      · simp [hct] at h
      · have hct' : isLineTerminator c = false := by
          cases hbe : isLineTerminator c with
          | true => exact absurd hbe hct
          | false => rfl
        simp only [hct', Bool.false_eq_true, if_false] at h
        obtain ⟨hr, m, hk, hm1, hm2, hcs⟩ := ih (p ++ [c]) k r h
        refine ⟨hr, c :: m, ?_, ?_, ?_, ?_⟩
        · rw [hk]; simp
        · intro x hx
          rcases List.mem_cons.mp hx with rfl | hx
          · exact hc
          · exact hm1 x hx
        · intro x hx
          rcases List.mem_cons.mp hx with rfl | hx
          · exact hct'
          · exact hm2 x hx
        · rw [hcs]; simp

theorem bracketMatch_shape (l k r : List Char) (h : bracketMatch l = some (k, r)) :
    k ≠ [] ∧ noTerm k = true ∧ (∀ c ∈ k.tail, c ≠ ']') ∧ noTerm r = true := by
  match l with
  | [] => simp [bracketMatch] at h
  | [_] => simp [bracketMatch] at h
  | c0 :: c1 :: t =>
    simp only [bracketMatch] at h
    by_cases h0 : c0 = '['
    · rw [if_pos h0] at h
      by_cases h1 : isLineTerminator c1
      · simp [h1] at h
      · have h1' : isLineTerminator c1 = false := by
          cases hbe : isLineTerminator c1 with
          | true => exact absurd hbe h1
          | false => rfl
        simp only [h1', Bool.false_eq_true, if_false] at h
        obtain ⟨hr, m, hk, hm1, hm2, -⟩ := bracketAux_shape t [c1] k r h
        subst hk
        refine ⟨by simp, ?_, ?_, hr⟩
        · rw [noTerm_iff]
          intro c hc
          rcases List.mem_append.mp hc with hc | hc
          · rw [List.mem_singleton.mp hc]; exact h1'
          · exact hm2 c hc
        · intro c hc
          simp only [List.singleton_append, List.tail_cons] at hc
          exact hm1 c hc
    · rw [if_neg h0] at h
      cases h

theorem mem_stripDot (l : List Char) (c : Char) (h : c ∈ stripDot l) : c ∈ l := by
  cases l with
  | nil => simp [stripDot] at h
  | cons c0 t =>
    simp only [stripDot] at h
    split at h
    · exact List.mem_cons_of_mem c0 h
    · exact h

theorem dotMatch_shape (l k r : List Char) (h : dotMatch l = some (k, r)) :
    k ≠ [] ∧ (∀ c ∈ k, isDotNameChar c = true) ∧ noTerm r = true := by
  obtain ⟨hk, hr, hne, hterm⟩ := dotMatch_inv l k r h
  refine ⟨?_, ?_, hterm⟩
  · intro e
    rw [e] at hne
    simp at hne
  · intro c hc
    rw [hk] at hc
    exact List.mem_takeWhile_imp hc

theorem dotMatch_key_noTerm (l k r : List Char) (hl : noTerm l = true)
    (h : dotMatch l = some (k, r)) : noTerm k = true := by
  obtain ⟨hk, -, -, -⟩ := dotMatch_inv l k r h
  rw [noTerm_iff]
  intro c hc
  rw [hk] at hc
  have h1 : c ∈ stripDot l := (List.takeWhile_sublist _).subset hc
  have h2 : c ∈ l := mem_stripDot l c h1
  exact (noTerm_iff l).mp hl c h2

theorem toSeg_good (k : List Char) (hk : k ≠ []) (hterm : noTerm k = true)
    (hshape : k.all isDotNameChar = true ∨ ∀ c ∈ k.tail, c ≠ ']') :
    goodTailSeg (toSeg k) := by
  have hke : k.isEmpty = false := by
    cases k with
    | nil => exact absurd rfl hk
    | cons _ _ => rfl
  by_cases hd : k.all Char.isDigit
  · simp [toSeg, hke, hd, goodTailSeg]
  · have hd' : k.all Char.isDigit = false := by
      cases hbe : k.all Char.isDigit with
      | true => exact absurd hbe hd
      | false => rfl
    simp only [toSeg, hke, hd', Bool.not_false, Bool.and_false, Bool.false_eq_true,
      if_false]
    exact ⟨hk, hd', hterm, hshape⟩

theorem toSeg_goodFirst (k : List Char) (hk : k ≠ [])
    (hshape : k.all isDotNameChar = true ∨
      (noTerm k = true ∧ ∀ c ∈ k.tail, c ≠ ']')) :
    goodFirstSeg (toSeg k) := by
  have hke : k.isEmpty = false := by
    cases k with
    | nil => exact absurd rfl hk
    | cons _ _ => rfl
  by_cases hd : k.all Char.isDigit
  · simp [toSeg, hke, hd, goodFirstSeg]
  · have hd' : k.all Char.isDigit = false := by
      cases hbe : k.all Char.isDigit with
      | true => exact absurd hbe hd
      | false => rfl
    simp only [toSeg, hke, hd', Bool.not_false, Bool.and_false, Bool.false_eq_true,
      if_false]
    exact ⟨hk, hd', hshape⟩

theorem parsePath_good_tail :
    ∀ (n : Nat) (l : List Char), l.length ≤ n → noTerm l = true →
      ∀ segs, parsePath l = some segs → ∀ t ∈ segs, goodTailSeg t := by
  intro n
  induction n with
  | zero =>
    intro l hl _ segs hp t ht
    have : l = [] := List.length_eq_zero.mp (Nat.le_zero.mp hl)
    subst this
    rw [parsePath_nil] at hp
    cases hp
    cases ht
  | succ n ih =>
    intro l hl hterm segs hp t ht
    rw [parsePath_eq] at hp
    by_cases hemp : l.isEmpty
    · rw [if_pos hemp] at hp
      cases hp
      cases ht
    · rw [if_neg hemp] at hp
      cases hbm : bracketMatch l with
      | some kr =>
        obtain ⟨k, r⟩ := kr
        rw [hbm] at hp
        obtain ⟨segs', hps, rfl⟩ := Option.map_eq_some'.mp hp
        have hlen := bracketMatch_length l k r hbm
        obtain ⟨hk, hknt, hktail, hrnt⟩ := bracketMatch_shape l k r hbm
        rcases List.mem_cons.mp ht with rfl | ht'
        · exact toSeg_good k hk hknt (Or.inr hktail)
        · exact ih r (by omega) hrnt segs' hps t ht'
      | none =>
        rw [hbm] at hp
        cases hdm : dotMatch l with
        | some kr =>
          obtain ⟨k, r⟩ := kr
          rw [hdm] at hp
          obtain ⟨segs', hps, rfl⟩ := Option.map_eq_some'.mp hp
          have hlen := dotMatch_length l k r hdm
          obtain ⟨hk, hkdot, hrnt⟩ := dotMatch_shape l k r hdm
          have hknt := dotMatch_key_noTerm l k r hterm hdm
          rcases List.mem_cons.mp ht with rfl | ht'
          · exact toSeg_good k hk hknt (Or.inl (List.all_eq_true.mpr hkdot))
          · exact ih r (by omega) hrnt segs' hps t ht'
        | none =>
          rw [hdm] at hp
          cases hp

theorem parsePath_good (l : List Char) (segs : List PathSeg)
    (h : parsePath l = some segs) :
    (∀ s, segs.head? = some s → goodFirstSeg s) ∧
    ∀ t ∈ segs.tail, goodTailSeg t := by
  rw [parsePath_eq] at h
  by_cases hemp : l.isEmpty
  · rw [if_pos hemp] at h
    cases h
    constructor
    · intro s hs
      simp at hs
    · intro t ht
      simp at ht
  · rw [if_neg hemp] at h
    cases hbm : bracketMatch l with
    | some kr =>
      obtain ⟨k, r⟩ := kr
      rw [hbm] at h
      obtain ⟨segs', hps, rfl⟩ := Option.map_eq_some'.mp h
      obtain ⟨hk, hknt, hktail, hrnt⟩ := bracketMatch_shape l k r hbm
      constructor
      · intro s hs
        cases hs
        exact toSeg_goodFirst k hk (Or.inr ⟨hknt, hktail⟩)
      · intro t ht
        exact parsePath_good_tail r.length r le_rfl hrnt segs' hps t ht
    | none =>
      rw [hbm] at h
      cases hdm : dotMatch l with
      | some kr =>
        obtain ⟨k, r⟩ := kr
        rw [hdm] at h
        obtain ⟨segs', hps, rfl⟩ := Option.map_eq_some'.mp h
        obtain ⟨hk, hkdot, hrnt⟩ := dotMatch_shape l k r hdm
        constructor
        · intro s hs
          cases hs
          exact toSeg_goodFirst k hk (Or.inl (List.all_eq_true.mpr hkdot))
        · intro t ht
          exact parsePath_good_tail r.length r le_rfl hrnt segs' hps t ht
      | none =>
        rw [hdm] at h
        cases h

/-! ## Decimal rendering of indices and its round trip -/

theorem natDigitsAux_eq :
    ∀ (f n : Nat), n < f →
      natDigitsAux f n = (Nat.digits 10 n).map (fun d => Char.ofNat (48 + d)) := by
  intro f
  induction f with
  | zero => intro n hn; omega
  | succ f ih =>
    intro n hn
    cases n with
    | zero => simp [natDigitsAux]
    | succ m =>
      have hdiv : (m + 1) / 10 < m + 1 := Nat.div_lt_self (by omega) (by norm_num)
      rw [show natDigitsAux (f + 1) (m + 1) =
        Char.ofNat (48 + (m + 1) % 10) :: natDigitsAux f ((m + 1) / 10) from rfl]
      rw [ih ((m + 1) / 10) (by omega)]
      rw [Nat.digits_def' (by norm_num : 1 < 10) (Nat.succ_pos m)]
      simp

theorem natDigits_eq (n : Nat) (hn : n ≠ 0) :
    natDigits n = ((Nat.digits 10 n).map (fun d => Char.ofNat (48 + d))).reverse := by
  simp [natDigits, hn, natDigitsAux_eq (n + 1) n (by omega)]

theorem natDigits_all_isDigit (n : Nat) : ∀ c ∈ natDigits n, c.isDigit = true := by
  by_cases hn : n = 0
  · subst hn
    intro c hc
    simp only [natDigits, if_pos trivial, reduceIte, List.mem_singleton] at hc
    subst hc
    decide
  · rw [natDigits_eq n hn]
    intro c hc
    rw [List.mem_reverse] at hc
    obtain ⟨d, hd, rfl⟩ := List.mem_map.mp hc
    have hdlt : d < 10 := Nat.digits_lt_base (by norm_num) hd
    interval_cases d <;> decide

theorem natDigits_ne_nil (n : Nat) : natDigits n ≠ [] := by
  by_cases hn : n = 0
  · subst hn; simp [natDigits]
  · rw [natDigits_eq n hn]
    simp [Nat.digits_ne_nil_iff_ne_zero.mpr hn]

theorem foldl_digits_val :
    ∀ (ds : List Nat), (∀ d ∈ ds, d < 10) → ∀ (a : Nat),
      ((ds.map (fun d => Char.ofNat (48 + d))).reverse).foldl
        (fun x c => 10 * x + (c.toNat - 48)) a =
      a * 10 ^ ds.length + Nat.ofDigits 10 ds := by
  intro ds
  induction ds with
  | nil => intro _ a; simp [Nat.ofDigits_nil]
  | cons d ds ih =>
    intro h a
    have hd : d < 10 := h d (by simp)
    have htn : (Char.ofNat (48 + d)).toNat = 48 + d := by
      interval_cases d <;> decide
    rw [List.map_cons, List.reverse_cons, List.foldl_append]
    rw [ih (fun x hx => h x (by simp [hx])) a]
    simp only [List.foldl_cons, List.foldl_nil, htn]
    rw [Nat.ofDigits_cons]
    have h48 : 48 + d - 48 = d := by omega
    rw [h48, List.length_cons, pow_succ]
    ring

theorem natOfDigits_natDigits (n : Nat) : natOfDigits (natDigits n) = n := by
  by_cases hn : n = 0
  · subst hn; decide
  · rw [natDigits_eq n hn]
    unfold natOfDigits
    rw [foldl_digits_val (Nat.digits 10 n)
      (fun d hd => Nat.digits_lt_base (by norm_num) hd) 0]
    simp [Nat.ofDigits_digits]

/-! ## Claim C10: re-parsing the canonical rendering of a valid parse -/

theorem renderTail_cons (s : PathSeg) (rest : List PathSeg) :
    renderTail (s :: rest) = renderSeg false s ++ renderTail rest := rfl

theorem isPlainName_eq (s : List Char) :
    isPlainName s = (!s.isEmpty && s.all isDotNameChar && !s.all Char.isDigit) := by
  cases hbe : s.isEmpty <;> cases hd : s.all isDotNameChar <;>
    cases hg : s.all Char.isDigit <;> simp [isPlainName, hbe, hd, hg]

theorem natDigits_dotname (n : Nat) : ∀ c ∈ natDigits n, isDotNameChar c = true :=
  fun c hc => (digit_char_facts c (natDigits_all_isDigit n c hc)).1

theorem natDigits_noTermF (n : Nat) : ∀ c ∈ natDigits n, isLineTerminator c = false :=
  fun c hc => (digit_char_facts c (natDigits_all_isDigit n c hc)).2.1

theorem natDigits_no_rb (n : Nat) : ∀ c ∈ natDigits n, c ≠ ']' :=
  fun c hc => (digit_char_facts c (natDigits_all_isDigit n c hc)).2.2

theorem toSeg_natDigits (n : Nat) : toSeg (natDigits n) = .index n := by
  have hne := natDigits_ne_nil n
  have hke : (natDigits n).isEmpty = false := by
    cases hnd : natDigits n with
    | nil => exact absurd hnd hne
    | cons _ _ => rfl
  have hall : (natDigits n).all Char.isDigit = true :=
    List.all_eq_true.mpr (natDigits_all_isDigit n)
  simp [toSeg, hke, hall, natOfDigits_natDigits]

theorem renderTail_stop (segs : List PathSeg) :
    (renderTail segs).takeWhile isDotNameChar = [] ∧
    (renderTail segs).dropWhile isDotNameChar = renderTail segs := by
  cases segs with
  | nil => simp [renderTail]
  | cons s rest =>
    cases s with
    | index n =>
      have heq : renderTail (.index n :: rest) =
          '[' :: ((natDigits n ++ [']']) ++ (rest.map (renderSeg false)).flatten) := by
        rw [renderTail_cons]
        simp [renderSeg, renderTail]
      rw [heq]
      exact ⟨List.takeWhile_cons_of_neg (by decide),
        List.dropWhile_cons_of_neg (by decide)⟩
    | name s' =>
      by_cases hp : isPlainName s'
      · have heq : renderTail (.name s' :: rest) =
            '.' :: (s' ++ (rest.map (renderSeg false)).flatten) := by
          rw [renderTail_cons]
          simp [renderSeg, hp, renderTail]
        rw [heq]
        exact ⟨List.takeWhile_cons_of_neg (by decide),
          List.dropWhile_cons_of_neg (by decide)⟩
      · have hp' : isPlainName s' = false := by
          cases hbe : isPlainName s' with
          | true => exact absurd hbe hp
          | false => rfl
        have heq : renderTail (.name s' :: rest) =
            '[' :: ((s' ++ [']']) ++ (rest.map (renderSeg false)).flatten) := by
          rw [renderTail_cons]
          simp [renderSeg, hp', renderTail]
        rw [heq]
        exact ⟨List.takeWhile_cons_of_neg (by decide),
          List.dropWhile_cons_of_neg (by decide)⟩

theorem renderSeg_noTerm (s : PathSeg) (h : goodTailSeg s) :
    noTerm (renderSeg false s) = true := by
  cases s with
  | index n =>
    have h1 : noTerm (natDigits n) = true := (noTerm_iff _).mpr (natDigits_noTermF n)
    simp only [renderSeg, noTerm_cons, noTerm_append, h1]
    decide
  | name s' =>
    obtain ⟨-, -, h3, -⟩ := h
    by_cases hp : isPlainName s'
    · simp only [renderSeg, hp, if_true, Bool.false_eq_true, if_false,
        noTerm_cons, h3]
      decide
    · have hp' : isPlainName s' = false := by
        cases hbe : isPlainName s' with
        | true => exact absurd hbe hp
        | false => rfl
      simp only [renderSeg, hp', Bool.false_eq_true, if_false, noTerm_cons,
        noTerm_append, h3]
      decide

theorem renderTail_noTerm (segs : List PathSeg)
    (h : ∀ t ∈ segs, goodTailSeg t) : noTerm (renderTail segs) = true := by
  induction segs with
  | nil => rfl
  | cons s rest ih =>
    rw [renderTail_cons, noTerm_append]
    rw [renderSeg_noTerm s (h s (by simp)),
      ih (fun t ht => h t (by simp [ht]))]
    rfl

theorem parse_render_tail_cons (s : PathSeg) (T : List Char)
    (hgood : goodTailSeg s)
    (hstop : T.takeWhile isDotNameChar = [] ∧ T.dropWhile isDotNameChar = T)
    (hT : noTerm T = true) :
    parsePath (renderSeg false s ++ T) =
      (parsePath T).map (fun ss => s :: ss) := by
  cases s with
  | index n =>
    have heq : renderSeg false (.index n) ++ T =
        '[' :: (natDigits n ++ ']' :: T) := by
      simp [renderSeg]
    rw [heq, parsePath_bracket_step (natDigits n) T (natDigits_ne_nil n)
      (natDigits_noTermF n)
      (fun c hc => natDigits_no_rb n c (List.mem_of_mem_tail hc)) hT]
    rw [toSeg_natDigits]
  | name s' =>
    by_cases hp : isPlainName s'
    · have hps := (isPlainName_eq s') ▸ hp
      have hne : s' ≠ [] := by
        intro e; subst e; simp at hps
      have hdot : ∀ c ∈ s', isDotNameChar c = true := by
        have := hps
        simp only [Bool.and_eq_true] at this
        exact List.all_eq_true.mp this.1.2
      have hdig : s'.all Char.isDigit = false := by
        have := hps
        simp only [Bool.and_eq_true, Bool.not_eq_true'] at this
        exact this.2
      have heq : renderSeg false (.name s') ++ T = '.' :: (s' ++ T) := by
        simp [renderSeg, hp]
      rw [heq, parsePath_dotted_step s' T hne hdot hstop hT]
      have htos : toSeg s' = .name s' := by simp [toSeg, hdig]
      rw [htos]
    · obtain ⟨hne, hdig, hnt, hdisj⟩ := hgood
      have hp' : isPlainName s' = false := by
        cases hbe : isPlainName s' with
        | true => exact absurd hbe hp
        | false => rfl
      have hke : s'.isEmpty = false := by
        cases s' with
        | nil => exact absurd rfl hne
        | cons _ _ => rfl
      have htail : ∀ c ∈ s'.tail, c ≠ ']' := by
        rcases hdisj with hd | hd
        · exfalso
          rw [isPlainName_eq, hke, hd, hdig] at hp'
          simp at hp'
        · exact hd
      have heq : renderSeg false (.name s') ++ T = '[' :: (s' ++ ']' :: T) := by
        simp [renderSeg, hp']
      rw [heq, parsePath_bracket_step s' T hne ((noTerm_iff s').mp hnt) htail hT]
      have htos : toSeg s' = .name s' := by simp [toSeg, hdig]
      rw [htos]

theorem parse_render_first_cons (s : PathSeg) (T : List Char)
    (hgood : goodFirstSeg s)
    (hstop : T.takeWhile isDotNameChar = [] ∧ T.dropWhile isDotNameChar = T)
    (hT : noTerm T = true) :
    parsePath (renderSeg true s ++ T) =
      (parsePath T).map (fun ss => s :: ss) := by
  cases s with
  | index n =>
    have heq : renderSeg true (.index n) ++ T =
        '[' :: (natDigits n ++ ']' :: T) := by
      simp [renderSeg]
    rw [heq, parsePath_bracket_step (natDigits n) T (natDigits_ne_nil n)
      (natDigits_noTermF n)
      (fun c hc => natDigits_no_rb n c (List.mem_of_mem_tail hc)) hT]
    rw [toSeg_natDigits]
  | name s' =>
    by_cases hp : isPlainName s'
    · have hps := (isPlainName_eq s') ▸ hp
      have hne : s' ≠ [] := by
        intro e; subst e; simp at hps
      have hdot : ∀ c ∈ s', isDotNameChar c = true := by
        have := hps
        simp only [Bool.and_eq_true] at this
        exact List.all_eq_true.mp this.1.2
      have hdig : s'.all Char.isDigit = false := by
        have := hps
        simp only [Bool.and_eq_true, Bool.not_eq_true'] at this
        exact this.2
      have heq : renderSeg true (.name s') ++ T = s' ++ T := by
        simp [renderSeg, hp]
      rw [heq, parsePath_plain_step s' T hne hdot hstop hT]
      have htos : toSeg s' = .name s' := by simp [toSeg, hdig]
      rw [htos]
    · obtain ⟨hne, hdig, hdisj⟩ := hgood
      have hp' : isPlainName s' = false := by
        cases hbe : isPlainName s' with
        | true => exact absurd hbe hp
        | false => rfl
      have hke : s'.isEmpty = false := by
        cases s' with
        | nil => exact absurd rfl hne
        | cons _ _ => rfl
      obtain ⟨hnt, htail⟩ : noTerm s' = true ∧ ∀ c ∈ s'.tail, c ≠ ']' := by
        rcases hdisj with hd | hd
        · exfalso
          rw [isPlainName_eq, hke, hd, hdig] at hp'
          simp at hp'
        · exact hd
      have heq : renderSeg true (.name s') ++ T = '[' :: (s' ++ ']' :: T) := by
        simp [renderSeg, hp']
      rw [heq, parsePath_bracket_step s' T hne ((noTerm_iff s').mp hnt) htail hT]
      have htos : toSeg s' = .name s' := by simp [toSeg, hdig]
      rw [htos]

theorem parse_renderTail (segs : List PathSeg)
    (h : ∀ t ∈ segs, goodTailSeg t) :
    parsePath (renderTail segs) = some segs := by
  induction segs with
  | nil => rfl
  | cons s rest ih =>
    rw [renderTail_cons]
    rw [parse_render_tail_cons s (renderTail rest) (h s (by simp))
      (renderTail_stop rest) (renderTail_noTerm rest (fun t ht => h t (by simp [ht])))]
    rw [ih (fun t ht => h t (by simp [ht]))]
    rfl

/-- C10: for every valid (non-fallback) parse, re-rendering the segment
sequence to canonical dot/bracket text (dot segments for plain names,
bracket segments for indices and all other names) and parsing that text
again reproduces the same segment sequence. -/
theorem claimC10_render_roundtrip :
    ∀ (l : List Char) (segs : List PathSeg), parsePath l = some segs →
      parsePath (renderPath segs) = some segs := by
  intro l segs h
  obtain ⟨hfirst, htail⟩ := parsePath_good l segs h
  cases segs with
  | nil => rfl
  | cons s rest =>
    rw [show renderPath (s :: rest) = renderSeg true s ++ renderTail rest from rfl]
    rw [parse_render_first_cons s (renderTail rest) (hfirst s rfl)
      (renderTail_stop rest)
      (renderTail_noTerm rest (fun t ht => htail t (by simpa using ht)))]
    rw [parse_renderTail rest (fun t ht => htail t (by simpa using ht))]
    rfl

theorem claimC10_witness :
    parsePath (renderPath [.name (chars "users"), .index 0, .name (chars "name")]) =
      some [.name (chars "users"), .index 0, .name (chars "name")] :=
  claimC10_render_roundtrip (chars "users[0].name")
    [.name (chars "users"), .index 0, .name (chars "name")] (by decide)
